import Mathlib

/-!
Verification of the async file-sorter (task_1.py) and the MapReduce word
counter (task_2.py) of this repository, via a shallow embedding in Lean.

Modelling conventions:
* a filesystem path is a list of name components (`Path := List Name`,
  `Name := List Char`), already absolute;
* canonicalization (`Path.resolve()` in the source, strict=False, so it
  never raises) is an arbitrary total function `res : Path → Path`
  supplied as a parameter;
* Python exceptions are `Except`: a `try/except` is a `match` on the
  `Except` value;
* filesystem side effects are recorded as explicit action traces.
-/

namespace Task1

/-- A path component (one directory or file name), as its characters. -/
abbrev Name := List Char

/-- An absolute filesystem path: its list of components. -/
abbrev Path := List Name

/-- Embeds `PurePath.relative_to`: on (already resolved) component lists it
succeeds exactly when `parent`'s components are a prefix of `child`'s,
returning the remaining components, and raises `ValueError` otherwise. -/
def relative_toE (child parent : Path) : Except Unit Path :=
  if parent.isPrefixOf child then .ok (child.drop parent.length) else .error ()

/-- Embeds `is_within` (task_1.py lines 35-41) with the exception flow kept
explicit: `child.resolve().relative_to(parent.resolve())` inside a
`try`, returning `True` on success; `except ValueError: return False`.
The result is an `Except` so that an uncaught exception would be visible
as `.error`. -/
def is_withinE (res : Path → Path) (child parent : Path) : Except Unit Bool :=
  match relative_toE (res child) (res parent) with
  | .ok _ => .ok true
  | .error _ => .ok false

/-- `is_within` as the Bool-valued function the rest of the program calls
(task_1.py lines 35-41). -/
def is_within (res : Path → Path) (child parent : Path) : Bool :=
  match is_withinE res child parent with
  | .ok b => b
  | .error _ => false

/-- Index of the last occurrence of a dot in a name, if any
(`str.rfind` restricted to what `ext_bucket` needs). -/
def lastDot : List Char → Option Nat
  | [] => none
  | c :: rest =>
    match lastDot rest with
    | some i => some (i + 1)
    | none => if c = '.' then some 0 else none

/-- Embeds `PurePath.suffix`: the final component's extension including the
dot, and `""` when the last dot is absent, leading, or trailing (CPython:
`i = name.rfind(".")`, return `name[i:]` if `0 < i < len(name) - 1`). -/
def pathSuffix (name : Name) : Name :=
  match lastDot name with
  | none => []
  | some i => if 0 < i ∧ i + 1 < name.length then name.drop i else []

/-- ASCII lowercasing of one character, embedding `str.lower` on the
ASCII inputs the model ranges over. -/
def lowerChar (c : Char) : Char := c.toLower

/-- ASCII lowercasing of a name. -/
def lowerName (n : Name) : Name := n.map lowerChar

/-- The last component of a path (`Path.name`), `[]` for the empty path. -/
def lastName (p : Path) : Name := p.getLastD []

/-- The sentinel bucket name `"no_ext"`. -/
def noExtName : Name := ['n', 'o', '_', 'e', 'x', 't']

/-- Embeds `ext_bucket` (task_1.py lines 44-47): `ext = p.suffix[1:].lower()`,
then `ext if ext else "no_ext"`. -/
def ext_bucket (p : Path) : Name :=
  let ext := lowerName ((pathSuffix (lastName p)).drop 1)
  if ext = [] then noExtName else ext

/-- The Extension Classifier rule as the spec words it: the substring after
the last dot of the file name, lowercased, and the sentinel exactly
when that substring is empty (or there is no dot at all).  Written for
comparison with `ext_bucket`, which is the code's rule. -/
def specBucketRule (name : Name) : Name :=
  match lastDot name with
  | none => noExtName
  | some i =>
    let e := lowerName (name.drop (i + 1))
    if e = [] then noExtName else e

/-- A Python exception, as `copy_file`'s handlers distinguish them:
`PermissionError` versus any other `Exception`. -/
inductive PyExc where
  | permission
  | other
deriving DecidableEq, Repr

/-- One filesystem side effect performed by `copy_file`. -/
inductive FsAction where
  | mkdirp (d : Path)
  | copy2 (src dst : Path)
deriving DecidableEq, Repr

/-- The outcome `copy_file` reports (by returning / logging). -/
inductive CopyOutcome where
  | skipped
  | copied
  | permErrorLogged
  | otherErrorLogged
deriving DecidableEq, Repr

/-- The `except` clauses of `copy_file` (task_1.py lines 68-71): a
`PermissionError` is logged with `log.error`, any other `Exception`
with `log.exception`; either way the coroutine returns normally. -/
def catchCopyExc : PyExc → CopyOutcome
  | .permission => .permErrorLogged
  | .other => .otherErrorLogged

/-- Embeds `copy_file` (task_1.py lines 50-71), with the `try` body's
exception flow kept explicit so that an exception escaping the handlers
would be visible as `.error`.  `mkdirE`/`copyE` give the environment's
behaviour of `dst_dir.mkdir(parents=True, exist_ok=True)` and
`aioshutil.copy2`.  Returns the reported outcome and the trace of
attempted filesystem actions. -/
def copy_fileE (res : Path → Path) (src out_root : Path)
    (mkdirE : Path → Except PyExc Unit)
    (copyE : Path → Path → Except PyExc Unit) :
    Except PyExc (CopyOutcome × List FsAction) :=
  let bucket := ext_bucket src
  let dst_dir := out_root ++ [bucket]
  let dst_file := dst_dir ++ [lastName src]
  if res src = res dst_file then
    .ok (.skipped, [])
  else
    match mkdirE dst_dir with
    | .error e => .ok (catchCopyExc e, [.mkdirp dst_dir])
    | .ok _ =>
      match copyE src dst_file with
      | .error e => .ok (catchCopyExc e, [.mkdirp dst_dir, .copy2 src dst_file])
      | .ok _ => .ok (.copied, [.mkdirp dst_dir, .copy2 src dst_file])

/-- `copy_file` as the total function the worker loop sees: `copy_fileE`
never escapes with an exception, so project out the normal result. -/
def copy_file (res : Path → Path) (src out_root : Path)
    (mkdirE : Path → Except PyExc Unit)
    (copyE : Path → Path → Except PyExc Unit) :
    CopyOutcome × List FsAction :=
  match copy_fileE res src out_root mkdirE copyE with
  | .ok r => r
  | .error _ => (.otherErrorLogged, [])

/-- One observable event of a worker loop (`_consumer`, task_1.py 74-87). -/
inductive CEvent where
  | copyCall (p : Path) (outcome : CopyOutcome)
  | ack
  | exitLoop
deriving DecidableEq, Repr

/-- Embeds the `_consumer` loop (task_1.py lines 74-87) over the sequence of
items this worker dequeues (`none` is the termination marker): on the
marker, `q.task_done()` then `break`; on a file, `copy_file` then, in a
`finally`, `q.task_done()`.  `copyRes` gives each copy's outcome. -/
def consumer (copyRes : Path → CopyOutcome) : List (Option Path) → List CEvent
  | [] => []
  | none :: _ => [.ack, .exitLoop]
  | some p :: rest => .copyCall p (copyRes p) :: .ack :: consumer copyRes rest

/-- Whether a consumer event is a `copy_file` invocation. -/
def CEvent.isCopy : CEvent → Bool
  | .copyCall _ _ => true
  | _ => false

/-- A directory tree: the regular files in this directory, and the named
subdirectories. -/
inductive FsTree where
  | node (files : List Name) (subs : List (Name × FsTree))
deriving Repr

mutual

/-- Embeds the traversal of `read_folder` (task_1.py lines 106-121):
`os.walk` from `cur` over tree `t`, top-down.  At each directory: if
`current.resolve() == out_root.resolve()`, clear `dirnames` and
`continue` (the directory is yielded but not processed); otherwise
enqueue every file of the directory and keep only the child directories
`d` with `not is_within(current / d, out_root)`.  Returns the list of
processed directories and the list of enqueued file paths, in walk
order. -/
def walkTree (res : Path → Path) (out : Path) (cur : Path) :
    FsTree → List Path × List Path
  | .node files subs =>
    if res cur = res out then ([], [])
    else
      let below := walkSubs res out cur subs
      (cur :: below.1, files.map (fun f => cur ++ [f]) ++ below.2)

/-- The traversal over the subdirectory entries of one directory, with the
`dirnames[:] = [d for d in dirnames if not is_within(current / d,
out_root)]` pruning applied to each entry. -/
def walkSubs (res : Path → Path) (out : Path) (cur : Path) :
    List (Name × FsTree) → List Path × List Path
  | [] => ([], [])
  | (d, t) :: rest =>
    let tail := walkSubs res out cur rest
    if is_within res (cur ++ [d]) out then tail
    else
      let here := walkTree res out (cur ++ [d]) t
      (here.1 ++ tail.1, here.2 ++ tail.2)

end

/-- The spec's self-containment scenario, source root: a directory `s`. -/
def scnSrc : Path := [['s']]

/-- The spec's self-containment scenario, destination root: `s/out`. -/
def scnOut : Path := [['s'], ['o','u','t']]

/-- The spec's self-containment scenario, tree under `s`: a file `a.txt`
and the destination directory `out` already holding `old.txt`. -/
def scnTree : FsTree :=
  .node [['a','.','t','x','t']]
    [(['o','u','t'], .node [['o','l','d','.','t','x','t']] [])]

/-- The directories the Walker processes (enqueues files from / descends
through) on a run with source root `src` holding the tree `t`. -/
def walkedDirs (res : Path → Path) (out src : Path) (t : FsTree) : List Path :=
  (walkTree res out src t).1

/-- The file paths the Walker enqueues on a run with source root `src`
holding the tree `t`. -/
def enqueuedFiles (res : Path → Path) (out src : Path) (t : FsTree) : List Path :=
  (walkTree res out src t).2

namespace Sched

/-- An item of the `asyncio.Queue` in `read_folder`: a file task
(abstracted to an index) or the `None` termination marker. -/
abbrev QItem := Option Nat

/-- The coordinator's control point inside `read_folder` (task_1.py 90-131):
still enqueueing files, blocked in `q.join()`, sending the `None`
markers (`k` still to send), or past `asyncio.gather`. -/
inductive PState where
  | enq (rem : List Nat)
  | joining
  | marking (k : Nat)
  | finished
deriving DecidableEq, Repr

/-- A worker's control point inside `_consumer`: waiting in `q.get()`,
processing a dequeued file (before its `q.task_done()`), or exited. -/
inductive WState where
  | idle
  | busy (p : Nat)
  | exited
deriving DecidableEq, Repr

/-- Whether a worker currently holds a dequeued, unacknowledged file. -/
def WState.isBusy : WState → Bool
  | .busy _ => true
  | _ => false

/-- A configuration of the `read_folder` pipeline: coordinator state, queue
contents, the queue's `unfinished` counter (incremented by `put`,
decremented by `task_done`), worker states, per-worker count of markers
observed, and counters of file puts, file acks and marker puts. -/
structure Cfg where
  prod : PState
  queue : List QItem
  unfinished : Nat
  workers : List WState
  seen : List Nat
  fPuts : Nat
  fAcks : Nat
  mPuts : Nat
deriving Repr

/-- Number of file items sitting in the queue. -/
def countF (q : List QItem) : Nat := q.countP (fun x => x.isSome)

/-- Number of termination markers sitting in the queue. -/
def countM (q : List QItem) : Nat := q.countP (fun x => x.isNone)

/-- Number of workers holding a dequeued, unacknowledged file. -/
def countBusy (ws : List WState) : Nat := ws.countP (fun w => w.isBusy)

/-- One interleaved step of the `read_folder` pipeline with queue capacity
`cap`.  `await q.put(...)` can fire only when the queue is below
capacity (backpressure); `q.join()` returns only when `unfinished = 0`;
workers dequeue FIFO from the head. -/
inductive Step (cap : Nat) : Cfg → Cfg → Prop where
  | putFile (c : Cfg) (f : Nat) (fs : List Nat)
      (hp : c.prod = .enq (f :: fs)) (hq : c.queue.length < cap) :
      Step cap c { c with prod := .enq fs, queue := c.queue ++ [some f],
                          unfinished := c.unfinished + 1, fPuts := c.fPuts + 1 }
  | startJoin (c : Cfg) (hp : c.prod = .enq []) :
      Step cap c { c with prod := .joining }
  | joinReturn (c : Cfg) (hp : c.prod = .joining) (hu : c.unfinished = 0) :
      Step cap c { c with prod := .marking c.workers.length }
  | putMarker (c : Cfg) (k : Nat)
      (hp : c.prod = .marking (k + 1)) (hq : c.queue.length < cap) :
      Step cap c { c with prod := .marking k, queue := c.queue ++ [none],
                          unfinished := c.unfinished + 1, mPuts := c.mPuts + 1 }
  | gatherDone (c : Cfg) (hp : c.prod = .marking 0)
      (hw : ∀ w ∈ c.workers, w = .exited) :
      Step cap c { c with prod := .finished }
  | getFile (c : Cfg) (i : Nat) (f : Nat) (q2 : List QItem)
      (hi : i < c.workers.length) (hw : c.workers[i] = .idle)
      (hq : c.queue = some f :: q2) :
      Step cap c { c with queue := q2, workers := c.workers.set i (.busy f) }
  | getMarker (c : Cfg) (i : Nat) (q2 : List QItem)
      (hi : i < c.workers.length) (hiS : i < c.seen.length)
      (hw : c.workers[i] = .idle) (hq : c.queue = none :: q2) :
      Step cap c { c with queue := q2, workers := c.workers.set i .exited,
                          unfinished := c.unfinished - 1,
                          seen := c.seen.set i (c.seen[i] + 1) }
  | ackFile (c : Cfg) (i : Nat) (f : Nat)
      (hi : i < c.workers.length) (hw : c.workers[i] = .busy f) :
      Step cap c { c with workers := c.workers.set i .idle,
                          unfinished := c.unfinished - 1,
                          fAcks := c.fAcks + 1 }

/-- The initial configuration of `read_folder`: `files` still to discover,
empty queue, `n` idle workers started before traversal. -/
def initCfg (files : List Nat) (n : Nat) : Cfg :=
  { prod := .enq files, queue := [], unfinished := 0,
    workers := List.replicate n .idle, seen := List.replicate n 0,
    fPuts := 0, fAcks := 0, mPuts := 0 }

/-- The final configuration of a one-file, one-worker, capacity-one run,
used to exercise the shutdown theorem on a concrete execution. -/
def demoFinal : Cfg :=
  { prod := .finished, queue := [], unfinished := 0,
    workers := [.exited], seen := [1], fPuts := 1, fAcks := 1, mPuts := 1 }

/-- Configurations reachable by the pipeline from its initial state. -/
inductive Reach (cap : Nat) (files : List Nat) (n : Nat) : Cfg → Prop where
  | init : Reach cap files n (initCfg files n)
  | step {c c2 : Cfg} : Reach cap files n c → Step cap c c2 →
      Reach cap files n c2

/-- Phase-dependent part of the pipeline invariant: no marker exists before
`q.join()` returns, and from then on the queue holds no file task and no
worker holds one; the marker counter ends at `n`. -/
def PhaseInv (n : Nat) (c : Cfg) : Prop :=
  match c.prod with
  | .enq _ => c.mPuts = 0
  | .joining => c.mPuts = 0
  | .marking k => c.mPuts + k = n ∧ countF c.queue = 0 ∧
      countBusy c.workers = 0
  | .finished => c.mPuts = n ∧ countF c.queue = 0 ∧
      countBusy c.workers = 0 ∧ ∀ w ∈ c.workers, w = .exited

/-- The pipeline invariant, preserved by every `Step`. -/
structure Inv (n : Nat) (c : Cfg) : Prop where
  wlen : c.workers.length = n
  slen : c.seen.length = n
  hf : c.fPuts = c.fAcks + countF c.queue + countBusy c.workers
  hm : c.mPuts = c.seen.sum + countM c.queue
  hu : c.unfinished = countF c.queue + countBusy c.workers + countM c.queue
  hworker : ∀ i, (hw : i < c.workers.length) → (hs : i < c.seen.length) →
      (c.workers[i] = .exited ↔ c.seen[i] = 1) ∧ c.seen[i] ≤ 1
  hphase : PhaseInv n c

end Sched

/-- One observable event of `main` (task_1.py lines 182-207). -/
inductive MainEvent where
  | logSourceError
  | logMkdirError
  | runPipeline
  | logCritical
  | logDone
deriving DecidableEq, Repr

/-- Embeds `main` (task_1.py lines 182-207) after argument parsing, plus the
`asyncio.run(main())` entry point.  `srcExists`/`srcIsDir` are the
results of `src_root.exists()` / `src_root.is_dir()`; `mkdirOk` is
whether `out_root.mkdir(parents=True, exist_ok=True)` succeeds;
`pipelineOk` whether `read_folder` raises.  Returns the event trace and
the process exit status: every branch of `main` ends in a plain
`return`, so `asyncio.run` completes normally and the process exits
with status 0 in all cases. -/
def main_model (srcExists srcIsDir mkdirOk pipelineOk : Bool) :
    List MainEvent × Nat :=
  if !srcExists || !srcIsDir then
    ([.logSourceError], 0)
  else if !mkdirOk then
    ([.logMkdirError], 0)
  else if !pipelineOk then
    ([.runPipeline, .logCritical], 0)
  else
    ([.runPipeline, .logDone], 0)

end Task1

namespace Task2

/-- A word, as its characters. -/
abbrev Word := List Char

/-- Whether `c` is one of the 32 characters of Python's
`string.punctuation`, i.e. ASCII codes 33-47, 58-64, 91-96, 123-126. -/
def isPunct (c : Char) : Bool :=
  (33 ≤ c.toNat && c.toNat ≤ 47) || (58 ≤ c.toNat && c.toNat ≤ 64) ||
  (91 ≤ c.toNat && c.toNat ≤ 96) || (123 ≤ c.toNat && c.toNat ≤ 126)

/-- Embeds `remove_punctuation` (task_2.py lines 48-49):
`text.translate(str.maketrans("", "", string.punctuation))` deletes
every ASCII punctuation character. -/
def remove_punctuation (text : List Char) : List Char :=
  text.filter (fun c => !isPunct c)

/-- ASCII lowercasing of a text, embedding `str.lower` on the ASCII inputs
the model ranges over. -/
def lowerText (text : List Char) : List Char := text.map Char.toLower

/-- Whether `c` is whitespace for `str.split()` (ASCII range: space, tab,
linefeed, carriage return, vertical tab, form feed). -/
def isSpaceChar (c : Char) : Bool :=
  c = ' ' || c = '\t' || c = '\n' || c = '\r' || c.toNat = 11 || c.toNat = 12

/-- Helper for `splitWs`: `acc` is the current word, reversed. -/
def splitWsAux : List Char → List Char → List Word
  | [], acc => if acc = [] then [] else [acc.reverse]
  | c :: rest, acc =>
    if isSpaceChar c then
      if acc = [] then splitWsAux rest []
      else acc.reverse :: splitWsAux rest []
    else splitWsAux rest (c :: acc)

/-- Embeds `str.split()` with no argument: split on runs of whitespace,
producing no empty words. -/
def splitWs (text : List Char) : List Word := splitWsAux text []

/-- Embeds `map_function` (task_2.py lines 52-53): `word -> (word, 1)`. -/
def map_function (w : Word) : Word × Nat := (w, 1)

/-- One `defaultdict(list)` insertion of `shuffle_function`: append `v` to
the entry of key `k`, creating the entry at the end if absent
(insertion order preserved, keys unique). -/
def insertKV : List (Word × List Nat) → Word × Nat → List (Word × List Nat)
  | [], kv => [(kv.1, [kv.2])]
  | e :: rest, kv =>
    if e.1 = kv.1 then (e.1, e.2 ++ [kv.2]) :: rest
    else e :: insertKV rest kv

/-- Embeds `shuffle_function` (task_2.py lines 56-62): group the mapped
pairs by key into a `defaultdict(list)`, returned as its items in
insertion order. -/
def shuffle_function (mapped : List (Word × Nat)) : List (Word × List Nat) :=
  mapped.foldl insertKV []

/-- Embeds `reduce_function` (task_2.py lines 65-67): sum the values of one
key. -/
def reduce_function (kv : Word × List Nat) : Word × Nat := (kv.1, kv.2.sum)

/-- Lookup in a Python dict built with `dict(pairs)`: the last pair with the
given key wins; `none` when absent. -/
def dictGet (l : List (Word × Nat)) (k : Word) : Option Nat :=
  l.foldl (fun acc e => if e.1 = k then some e.2 else acc) none

/-- Embeds `map_reduce` (task_2.py lines 71-96): lowercase, strip ASCII
punctuation, split on whitespace; when `search_words` is truthy (a
non-empty list), keep only words in the lowercased search set; then
map, shuffle, reduce.  The returned association list has unique keys
and is read through `dictGet`, embedding `dict(reduced_values)`.
(The two `ThreadPoolExecutor.map` calls apply a pure function to each
element in order, so they are `List.map`.) -/
def map_reduce (text : List Char) (search_words : Option (List Word)) :
    List (Word × Nat) :=
  let text2 := remove_punctuation (lowerText text)
  let words0 := splitWs text2
  let words :=
    match search_words with
    | none => words0
    | some sw =>
      if sw = [] then words0
      else
        let wanted := sw.map (fun (w : Word) => w.map Char.toLower)
        words0.filter (fun w => wanted.contains w)
  let mapped := words.map map_function
  let shuffled := shuffle_function mapped
  shuffled.map reduce_function

/-- The reference word-frequency count of the claim: number of occurrences
of `w` after lowercasing, deleting ASCII punctuation and splitting on
whitespace. -/
def wordFreq (text : List Char) (w : Word) : Nat :=
  (splitWs (remove_punctuation (lowerText text))).count w

/-- First-match lookup in the grouped association list (whose keys are
unique by construction). -/
def getA : List (Word × List Nat) → Word → Option (List Nat)
  | [], _ => none
  | e :: rest, k => if e.1 = k then some e.2 else getA rest k

/-- First-match lookup in a `(Word, Nat)` association list. -/
def getFirst : List (Word × Nat) → Word → Option Nat
  | [], _ => none
  | e :: rest, k => if e.1 = k then some e.2 else getFirst rest k

/-- The values carried by key `k` in a mapped list, in order. -/
def valuesOf (k : Word) (ms : List (Word × Nat)) : List Nat :=
  ms.filterMap (fun e => if e.1 = k then some e.2 else none)

end Task2

/-! ## Theorems -/

namespace Task1

/-- Boolean prefix test on component lists, characterized by an appended
tail. -/
theorem isPrefixOf_iff_append (l1 l2 : Path) :
    l1.isPrefixOf l2 = true ↔ ∃ t, l2 = l1 ++ t := by
  induction l1 generalizing l2 with
  | nil => simp
  | cons a as ih =>
    cases l2 with
    | nil => simp
    | cons b bs =>
      rw [List.isPrefixOf_cons₂]
      simp only [Bool.and_eq_true, beq_iff_eq, ih, List.cons_append,
        List.cons.injEq]
      constructor
      · rintro ⟨rfl, t, rfl⟩
        exact ⟨t, rfl, rfl⟩
      · rintro ⟨t, rfl, rfl⟩
        exact ⟨rfl, t, rfl⟩

/-- C5: the Destination Guard returns true iff the candidate, after
canonicalization by `res`, is the destination root itself or a strict
descendant of it, and false otherwise. -/
theorem is_within_iff_descendant (res : Path → Path) (child parent : Path) :
    is_within res child parent = true ↔
      (res child = res parent ∨
        ∃ rest, rest ≠ [] ∧ res child = res parent ++ rest) := by
  have hiff := isPrefixOf_iff_append (res parent) (res child)
  cases hb : (res parent).isPrefixOf (res child) with
  | true =>
    rw [hb] at hiff
    obtain ⟨t, ht⟩ := hiff.mp rfl
    simp only [is_within, is_withinE, relative_toE, hb, if_true]
    constructor
    · intro _
      cases t with
      | nil => exact Or.inl (by simpa using ht)
      | cons x xs => exact Or.inr ⟨x :: xs, by simp, ht⟩
    · intro _
      trivial
  | false =>
    rw [hb] at hiff
    simp only [is_within, is_withinE, relative_toE, hb, if_false]
    constructor
    · intro hcontra
      exact absurd hcontra (by simp)
    · rintro (heq | ⟨rest, hne, heq⟩)
      · exact absurd (hiff.mpr ⟨[], by simpa using heq⟩) (by simp)
      · exact absurd (hiff.mpr ⟨rest, heq⟩) (by simp)

/-- C6: the Destination Guard never lets an exception escape — its embedded
computation always returns `.ok` — and it is conservative: when the
`relative_to` comparison raises, the answer is `false`, and `true` is
answered only when that comparison succeeded. -/
theorem is_within_never_raises (res : Path → Path) (child parent : Path) :
    is_withinE res child parent = .ok (is_within res child parent) ∧
    (relative_toE (res child) (res parent) = .error () →
      is_within res child parent = false) ∧
    (is_within res child parent = true →
      ∃ r, relative_toE (res child) (res parent) = .ok r) := by
  cases hb : (res parent).isPrefixOf (res child) <;>
    simp [is_within, is_withinE, relative_toE, hb]

/-- Witness for C6 at a concrete unresolvable comparison: `[b]` is not
under `[a]`, the embedded `relative_to` raises, and the guard answers
`false` rather than propagating. -/
theorem is_within_never_raises_witness :
    relative_toE (id [['b']]) (id [['a']]) = .error () ∧
    is_within id [['b']] [['a']] = false := by
  refine ⟨by rfl, ?_⟩
  exact (is_within_never_raises id [['b']] [['a']]).2.1 (by rfl)

/-- C3: the Copy Operation always returns normally: every exception of the
body (directory creation, copy) is caught by the handlers, so the
embedded computation never ends in `.error`, whatever the environment
does. -/
theorem copy_file_never_raises (res : Path → Path) (src out_root : Path)
    (mkdirE : Path → Except PyExc Unit)
    (copyE : Path → Path → Except PyExc Unit) :
    copy_fileE res src out_root mkdirE copyE =
      .ok (copy_file res src out_root mkdirE copyE) := by
  have h : ∃ r, copy_fileE res src out_root mkdirE copyE = Except.ok r := by
    simp only [copy_fileE]
    split
    · exact ⟨_, rfl⟩
    · split
      · exact ⟨_, rfl⟩
      · split <;> exact ⟨_, rfl⟩
  obtain ⟨r, hr⟩ := h
  rw [hr]
  simp [copy_file, hr]

/-- C7: when the canonicalized computed target equals the canonicalized
source, the Copy Operation is a no-op: outcome `skipped`, no directory
creation and no copy attempted. -/
theorem copy_file_self_skip (res : Path → Path) (src out_root : Path)
    (mkdirE : Path → Except PyExc Unit)
    (copyE : Path → Path → Except PyExc Unit)
    (h : res src = res (out_root ++ [ext_bucket src] ++ [lastName src])) :
    copy_file res src out_root mkdirE copyE = (.skipped, []) := by
  simp [copy_file, copy_fileE, h]

/-- Witness for C7: a source already sitting at `out/txt/a.txt` with
destination root `out` maps onto itself and is skipped. -/
theorem copy_file_self_skip_witness :
    id [['o'], ['t','x','t'], ['a','.','t','x','t']] =
      id ([['o']] ++ [ext_bucket [['o'], ['t','x','t'], ['a','.','t','x','t']]]
        ++ [lastName [['o'], ['t','x','t'], ['a','.','t','x','t']]]) ∧
    copy_file id [['o'], ['t','x','t'], ['a','.','t','x','t']] [['o']]
      (fun _ => .ok ()) (fun _ _ => .ok ()) = (.skipped, []) := by
  refine ⟨by decide, ?_⟩
  exact copy_file_self_skip id _ _ _ _ (by decide)

/-- Helper: a copy event is not the ack event. -/
theorem beq_copyCall_ack (p : Path) (o : CopyOutcome) :
    (CEvent.copyCall p o == CEvent.ack) = false := rfl

/-- Helper: the ack event equals itself under `==`. -/
theorem beq_ack_ack : (CEvent.ack == CEvent.ack) = true := rfl

/-- Helper: the exit event is not the ack event. -/
theorem beq_exit_ack : (CEvent.exitLoop == CEvent.ack) = false := rfl

/-- Helper: `isCopy` on a copy event. -/
theorem isCopy_copyCall (p : Path) (o : CopyOutcome) :
    (CEvent.copyCall p o).isCopy = true := rfl

/-- Helper: `isCopy` on the ack event. -/
theorem isCopy_ack : CEvent.ack.isCopy = false := rfl

/-- Helper: `isCopy` on the exit event. -/
theorem isCopy_exit : CEvent.exitLoop.isCopy = false := rfl

/-- C1 counterexample: with destination root `a` and source root `a/b`
(the source lying strictly inside the destination), the Walker
processes the directory `a/b` — which lies inside the canonical
destination root — and enqueues its file `a/b/f`. -/
theorem walker_visits_inside_dest_cex :
    walkedDirs id [['a']] [['a'], ['b']] (.node [['f']] []) =
      [[['a'], ['b']]] ∧
    is_within id [['a'], ['b']] [['a']] = true ∧
    enqueuedFiles id [['a']] [['a'], ['b']] (.node [['f']] []) =
      [[['a'], ['b'], ['f']]] := by
  refine ⟨by decide, by decide, by decide⟩

mutual

/-- Soundness of the traversal from a directory not strictly inside the
destination root: no processed directory is inside the destination
root, and every enqueued file sits directly in a processed directory. -/
theorem walkTree_sound (res : Path → Path) (out cur : Path) (t : FsTree)
    (hcur : is_within res cur out = true → res cur = res out) :
    (∀ d ∈ (walkTree res out cur t).1, is_within res d out = false) ∧
    (∀ f ∈ (walkTree res out cur t).2,
      ∃ d n, d ∈ (walkTree res out cur t).1 ∧ f = d ++ [n]) := by
  cases t with
  | node files subs =>
    by_cases heq : res cur = res out
    · constructor <;> intro x hx <;> rw [walkTree] at hx <;>
        simp [heq] at hx
    · have hsub := walkSubs_sound res out cur subs
      have hcurF : is_within res cur out = false := by
        cases hb : is_within res cur out with
        | true => exact absurd (hcur hb) heq
        | false => rfl
      constructor
      · intro d hd
        rw [walkTree] at hd
        simp only [if_neg heq] at hd
        rcases List.mem_cons.mp hd with rfl | hd2
        · exact hcurF
        · exact hsub.1 d hd2
      · intro f hf
        rw [walkTree] at hf
        simp only [if_neg heq] at hf
        rcases List.mem_append.mp hf with hf1 | hf2
        · obtain ⟨n, hn, rfl⟩ := List.mem_map.mp hf1
          refine ⟨cur, n, ?_, rfl⟩
          rw [walkTree]
          simp [if_neg heq]
        · obtain ⟨d, n, hd, rfl⟩ := hsub.2 f hf2
          refine ⟨d, n, ?_, rfl⟩
          rw [walkTree]
          simp only [if_neg heq]
          exact List.mem_cons_of_mem _ hd

/-- Soundness of the traversal over one directory's subdirectory entries,
with the pruning filter applied to each entry. -/
theorem walkSubs_sound (res : Path → Path) (out cur : Path)
    (subs : List (Name × FsTree)) :
    (∀ d ∈ (walkSubs res out cur subs).1, is_within res d out = false) ∧
    (∀ f ∈ (walkSubs res out cur subs).2,
      ∃ d n, d ∈ (walkSubs res out cur subs).1 ∧ f = d ++ [n]) := by
  cases subs with
  | nil => constructor <;> intro x hx <;> simp [walkSubs] at hx
  | cons e rest =>
    obtain ⟨d0, t0⟩ := e
    have htail := walkSubs_sound res out cur rest
    by_cases hw : is_within res (cur ++ [d0]) out = true
    · constructor <;> intro x hx <;> rw [walkSubs] at hx <;>
        simp only [hw, if_pos] at hx
      · exact htail.1 x hx
      · obtain ⟨d, n, hd, rfl⟩ := htail.2 x hx
        refine ⟨d, n, ?_, rfl⟩
        rw [walkSubs]
        simp only [hw, if_pos]
        exact hd
    · have hhere := walkTree_sound res out (cur ++ [d0]) t0
        (fun h => absurd h hw)
      have hwF : is_within res (cur ++ [d0]) out = false := by
        cases hb : is_within res (cur ++ [d0]) out with
        | true => exact absurd hb hw
        | false => rfl
      constructor
      · intro d hd
        rw [walkSubs] at hd
        simp only [hwF, if_neg, Bool.false_eq_true, if_false] at hd
        rcases List.mem_append.mp hd with hd1 | hd2
        · exact hhere.1 d hd1
        · exact htail.1 d hd2
      · intro f hf
        rw [walkSubs] at hf
        simp only [hwF, Bool.false_eq_true, if_false] at hf
        rcases List.mem_append.mp hf with hf1 | hf2
        · obtain ⟨d, n, hd, rfl⟩ := hhere.2 f hf1
          refine ⟨d, n, ?_, rfl⟩
          rw [walkSubs]
          simp only [hwF, Bool.false_eq_true, if_false]
          exact List.mem_append_left _ hd
        · obtain ⟨d, n, hd, rfl⟩ := htail.2 f hf2
          refine ⟨d, n, ?_, rfl⟩
          rw [walkSubs]
          simp only [hwF, Bool.false_eq_true, if_false]
          exact List.mem_append_right _ hd

end

/-- C1 amended: on every run whose canonical source root is not strictly
inside the canonical destination root, the Walker never processes a
directory canonically equal to or inside the destination root, and
every enqueued file sits directly inside some processed directory (so
no file of the destination subtree is ever enqueued). -/
theorem walker_skips_destination (res : Path → Path) (out src : Path)
    (t : FsTree) (hsrc : is_within res src out = true → res src = res out) :
    (∀ d ∈ walkedDirs res out src t, is_within res d out = false) ∧
    (∀ f ∈ enqueuedFiles res out src t,
      ∃ d n, d ∈ walkedDirs res out src t ∧ f = d ++ [n]) :=
  walkTree_sound res out src t hsrc

/-- Witness for C1 amended, at the spec's scenario: destination `s/out`
inside source `s` with a pre-existing `s/out/old.txt`.  The Walker
processes only `s`, enqueues only `s/a.txt`, never enqueues `old.txt`,
and no processed directory is inside the destination root. -/
theorem walker_skips_destination_witness :
    (is_within id scnSrc scnOut = true → id scnSrc = id scnOut) ∧
    (∀ d ∈ walkedDirs id scnOut scnSrc scnTree,
      is_within id d scnOut = false) ∧
    walkedDirs id scnOut scnSrc scnTree = [scnSrc] ∧
    enqueuedFiles id scnOut scnSrc scnTree = [[['s'], ['a','.','t','x','t']]] ∧
    [['s'], ['o','u','t'], ['o','l','d','.','t','x','t']] ∉
      enqueuedFiles id scnOut scnSrc scnTree := by
  refine ⟨by decide, ?_, by decide, by decide, by decide⟩
  exact (walker_skips_destination id scnOut scnSrc scnTree (by decide)).1

/-- Helper: the index of the last dot is inside the name. -/
theorem lastDot_lt_length (name : Name) (i : Nat) (h : lastDot name = some i) :
    i < name.length := by
  induction name generalizing i with
  | nil => simp [lastDot] at h
  | cons c rest ih =>
    rw [lastDot] at h
    cases hr : lastDot rest with
    | some j =>
      rw [hr] at h
      cases h
      simpa using Nat.succ_lt_succ (ih j hr)
    | none =>
      rw [hr] at h
      by_cases hc : c = '.'
      · rw [if_pos hc] at h
        cases h
        simp
      · rw [if_neg hc] at h
        cases h

/-- C4 counterexample: on the dotfile `.bashrc` the code returns the
sentinel `no_ext`, while the claimed rule (substring after the last
dot, lowercased, sentinel exactly when empty) yields `bashrc`. -/
theorem ext_bucket_dotfile_cex :
    ext_bucket [['.','b','a','s','h','r','c']] = noExtName ∧
    specBucketRule ['.','b','a','s','h','r','c'] = ['b','a','s','h','r','c'] ∧
    ext_bucket [['.','b','a','s','h','r','c']] ≠
      specBucketRule ['.','b','a','s','h','r','c'] := by
  refine ⟨by decide, by decide, by decide⟩

/-- C4 amended: the Extension Classifier returns the lowercased substring
after the last dot of the file name when that dot is neither the
first nor the last character of the name (in which case the result is
never empty), and the sentinel `no_ext` when the name has no dot, when
its last dot is leading (dotfiles), or when its last dot is trailing. -/
theorem ext_bucket_spec (name : Name) :
    (∀ i, lastDot name = some i → 0 < i → i + 1 < name.length →
        ext_bucket [name] = lowerName (name.drop (i + 1)) ∧
        lowerName (name.drop (i + 1)) ≠ []) ∧
    ((lastDot name = none ∨ lastDot name = some 0 ∨
        lastDot name = some (name.length - 1)) →
      ext_bucket [name] = noExtName) := by
  have hlast : lastName [name] = name := rfl
  constructor
  · intro i hdot hpos hlen
    have hsuf : pathSuffix name = name.drop i := by
      simp only [pathSuffix, hdot]
      exact if_pos ⟨hpos, hlen⟩
    have hdrop : (name.drop i).drop 1 = name.drop (i + 1) := by
      rw [List.drop_drop, Nat.add_comm]
    have hne : name.drop (i + 1) ≠ [] := by
      intro hc
      rw [List.drop_eq_nil_iff] at hc
      omega
    have hnemap : lowerName (name.drop (i + 1)) ≠ [] := by
      simpa [lowerName] using hne
    refine ⟨?_, hnemap⟩
    simp only [ext_bucket, hlast, hsuf, hdrop]
    exact if_neg hnemap
  · intro hcase
    have hsuf : pathSuffix name = [] := by
      rcases hcase with h | h | h
      · simp [pathSuffix, h]
      · simp [pathSuffix, h]
      · have hlt := lastDot_lt_length name _ h
        simp only [pathSuffix, h]
        exact if_neg (by omega)
    simp [ext_bucket, hlast, hsuf, lowerName]

/-- Witness for C4 amended: `a.TXT` buckets to `txt` through the general
rule, and `b` (no dot) to the sentinel. -/
theorem ext_bucket_spec_witness :
    ext_bucket [['a','.','T','X','T']] = ['t','x','t'] ∧
    ext_bucket [['b']] = noExtName := by
  constructor
  · have h := (ext_bucket_spec ['a','.','T','X','T']).1 1 (by decide)
      (by decide) (by decide)
    exact h.1.trans (by decide)
  · exact (ext_bucket_spec ['b']).2 (Or.inl (by decide))

namespace Sched

/-- Helper: how `countP` changes under `List.set`, in subtraction-free
form. -/
theorem countP_set_add {α : Type} (p : α → Bool) (l : List α) (i : Nat)
    (x : α) (hi : i < l.length) :
    (l.set i x).countP p + (if p l[i] then 1 else 0) =
      l.countP p + (if p x then 1 else 0) := by
  induction l generalizing i with
  | nil => simp at hi
  | cons a as ih =>
    cases i with
    | zero =>
      cases hpa : p a <;> cases hpx : p x <;>
        simp [List.countP_cons, hpa, hpx]
    | succ j =>
      have hj : j < as.length := by simpa using hi
      have h := ih j hj
      cases hpa : p a <;>
        simp [List.countP_cons, List.getElem_cons_succ, hpa] at h ⊢ <;>
        omega

/-- Helper: how a `List.sum` changes under `List.set`, in subtraction-free
form. -/
theorem sum_set_add (l : List Nat) (i : Nat) (x : Nat) (hi : i < l.length) :
    (l.set i x).sum + l[i] = l.sum + x := by
  induction l generalizing i with
  | nil => simp at hi
  | cons a as ih =>
    cases i with
    | zero => simp [List.sum_cons]; omega
    | succ j =>
      have hj : j < as.length := by simpa using hi
      have h := ih j hj
      simp [List.sum_cons, List.getElem_cons_succ]
      omega

/-- Helper: `isBusy` on an idle worker. -/
theorem isBusy_idle : WState.idle.isBusy = false := rfl

/-- Helper: `isBusy` on a busy worker. -/
theorem isBusy_busy (f : Nat) : (WState.busy f).isBusy = true := rfl

/-- Helper: `isBusy` on an exited worker. -/
theorem isBusy_exited : WState.exited.isBusy = false := rfl

/-- Helper: how `countBusy` changes when one worker changes state. -/
theorem countBusy_set (ws : List WState) (i : Nat) (x : WState)
    (hi : i < ws.length) :
    countBusy (ws.set i x) + (if ws[i].isBusy then 1 else 0) =
      countBusy ws + (if x.isBusy then 1 else 0) := by
  have h := countP_set_add (fun w => w.isBusy) ws i x hi
  simpa [countBusy] using h

/-- Helper: a worker observed to be busy makes `countBusy` positive. -/
theorem countBusy_pos (ws : List WState) (i : Nat) (hi : i < ws.length)
    (f : Nat) (hw : ws[i] = .busy f) : 0 < countBusy ws := by
  refine List.countP_pos_iff.mpr ⟨ws[i], List.getElem_mem hi, ?_⟩
  simp [hw, WState.isBusy]

/-- Helper: `countBusy` of all-idle workers is zero. -/
theorem countBusy_replicate_idle (n : Nat) :
    countBusy (List.replicate n .idle) = 0 := by
  induction n with
  | zero => rfl
  | succ k ih =>
    simp [List.replicate_succ, countBusy, List.countP_cons, WState.isBusy]

/-- Helper: the sum of the all-zero marker count vector is zero. -/
theorem sum_replicate_zero (n : Nat) : (List.replicate n 0).sum = 0 := by
  induction n with
  | zero => rfl
  | succ k ih =>
    simp [List.replicate_succ]

/-- The pipeline invariant holds in every reachable configuration. -/
theorem reach_inv (cap : Nat) (files : List Nat) (n : Nat) (c : Cfg)
    (h : Reach cap files n c) : Inv n c := by
  induction h with
  | init =>
    refine { wlen := ?_, slen := ?_, hf := ?_, hm := ?_, hu := ?_,
             hworker := ?_, hphase := ?_ }
    · simp [initCfg]
    · simp [initCfg]
    · simp [initCfg, countF, countBusy_replicate_idle]
    · simp [initCfg, countM, sum_replicate_zero]
    · simp [initCfg, countF, countM, countBusy_replicate_idle]
    · intro i hw hs
      refine ⟨?_, ?_⟩
      · constructor <;> intro hx <;> simp [initCfg] at hx
      · simp [initCfg]
    · simp [PhaseInv, initCfg]
  | @step c c2 h1 h2 ih =>
    obtain ⟨wlen, slen, hf, hm, hu, hworker, hphase⟩ := ih
    cases h2 with
    | putFile f fs hp hq =>
      have hcf : countF (c.queue ++ [some f]) = countF c.queue + 1 := by
        simp [countF, List.countP_append, List.countP_cons]
      have hcm : countM (c.queue ++ [some f]) = countM c.queue := by
        simp [countM, List.countP_append, List.countP_cons]
      refine { wlen := wlen, slen := slen, hworker := hworker,
               hf := ?_, hm := ?_, hu := ?_, hphase := ?_ }
      · dsimp only
        omega
      · dsimp only
        omega
      · dsimp only
        omega
      · simp only [PhaseInv, hp] at hphase
        simp only [PhaseInv]
        exact hphase
    | startJoin hp =>
      refine { wlen := wlen, slen := slen, hworker := hworker,
               hf := hf, hm := hm, hu := hu, hphase := ?_ }
      simp only [PhaseInv, hp] at hphase
      simp only [PhaseInv]
      exact hphase
    | joinReturn hp hu0 =>
      refine { wlen := wlen, slen := slen, hworker := hworker,
               hf := hf, hm := hm, hu := hu, hphase := ?_ }
      simp only [PhaseInv, hp] at hphase
      simp only [PhaseInv]
      refine ⟨?_, ?_, ?_⟩ <;> omega
    | putMarker k hp hq =>
      have hcf : countF (c.queue ++ [none]) = countF c.queue := by
        simp [countF, List.countP_append, List.countP_cons]
      have hcm : countM (c.queue ++ [none]) = countM c.queue + 1 := by
        simp [countM, List.countP_append, List.countP_cons]
      simp only [PhaseInv, hp] at hphase
      refine { wlen := wlen, slen := slen, hworker := hworker,
               hf := ?_, hm := ?_, hu := ?_, hphase := ?_ }
      · dsimp only
        omega
      · dsimp only
        omega
      · dsimp only
        omega
      · simp only [PhaseInv]
        refine ⟨by omega, by omega, ?_⟩
        exact hphase.2.2
    | gatherDone hp hw =>
      simp only [PhaseInv, hp] at hphase
      refine { wlen := wlen, slen := slen, hworker := hworker,
               hf := hf, hm := hm, hu := hu, hphase := ?_ }
      simp only [PhaseInv]
      exact ⟨by omega, hphase.2.1, hphase.2.2, hw⟩
    | getFile i f q2 hi hwi hq =>
      have hcf : countF c.queue = countF q2 + 1 := by
        rw [hq]
        simp [countF, List.countP_cons]
      have hcm : countM c.queue = countM q2 := by
        rw [hq]
        simp [countM, List.countP_cons]
      have hcb : countBusy (c.workers.set i (.busy f)) =
          countBusy c.workers + 1 := by
        have h0 := countBusy_set c.workers i (.busy f) hi
        rw [hwi] at h0
        simpa [isBusy_idle, isBusy_busy] using h0
      refine { wlen := ?_, slen := slen, hworker := ?_,
               hf := ?_, hm := ?_, hu := ?_, hphase := ?_ }
      · simpa using wlen
      · dsimp only
        omega
      · dsimp only
        omega
      · dsimp only
        omega
      · intro j hwj hsj
        dsimp only at hwj hsj ⊢
        rw [List.length_set] at hwj
        by_cases hij : i = j
        · subst hij
          rw [List.getElem_set_self (by simpa using hi)]
          have hold := hworker i hi hsj
          rw [hwi] at hold
          constructor
          · constructor
            · intro hx
              cases hx
            · intro hx
              exact absurd (hold.1.mpr hx) (by simp)
          · exact hold.2
        · rw [List.getElem_set_ne hij]
          exact hworker j hwj hsj
      · rcases hcp : c.prod with rem | _ | k | _ <;>
          simp only [PhaseInv, hcp] at hphase ⊢
        · exact hphase
        · exact hphase
        · refine ⟨hphase.1, by omega, by omega⟩
        · refine ⟨hphase.1, by omega, by omega, ?_⟩
          intro w hwmem
          have := List.getElem_mem hi
          rw [hwi] at this
          exact absurd (hphase.2.2.2 _ this) (by simp)
    | getMarker i q2 hi hiS hwi hq =>
      have hcf : countF c.queue = countF q2 := by
        rw [hq]
        simp [countF, List.countP_cons]
      have hcm : countM c.queue = countM q2 + 1 := by
        rw [hq]
        simp [countM, List.countP_cons]
      have hcb : countBusy (c.workers.set i .exited) = countBusy c.workers := by
        have h0 := countBusy_set c.workers i .exited hi
        rw [hwi] at h0
        simpa [isBusy_idle, isBusy_exited] using h0
      have hsum := sum_set_add c.seen i (c.seen[i] + 1) hiS
      have hseen0 : c.seen[i] = 0 := by
        have hold := hworker i hi hiS
        rw [hwi] at hold
        have h1 : ¬c.seen[i] = 1 := fun hx => by
          exact absurd (hold.1.mpr hx) (by simp)
        omega
      refine { wlen := ?_, slen := ?_, hworker := ?_,
               hf := ?_, hm := ?_, hu := ?_, hphase := ?_ }
      · simpa using wlen
      · simpa using slen
      · dsimp only
        omega
      · dsimp only
        omega
      · dsimp only
        omega
      · intro j hwj hsj
        dsimp only at hwj hsj ⊢
        rw [List.length_set] at hwj
        rw [List.length_set] at hsj
        by_cases hij : i = j
        · subst hij
          rw [List.getElem_set_self (by simpa using hi),
            List.getElem_set_self (by simpa using hiS)]
          refine ⟨?_, by omega⟩
          constructor
          · intro _
            omega
          · intro _
            rfl
        · rw [List.getElem_set_ne hij, List.getElem_set_ne hij]
          exact hworker j hwj hsj
      · rcases hcp : c.prod with rem | _ | k | _ <;>
          simp only [PhaseInv, hcp] at hphase ⊢
        · omega
        · omega
        · refine ⟨by omega, by omega, by omega⟩
        · have := List.getElem_mem hi
          rw [hwi] at this
          exact absurd (hphase.2.2.2 _ this) (by simp)
    | ackFile i f hi hwi =>
      have hcb : countBusy (c.workers.set i .idle) + 1 =
          countBusy c.workers := by
        have h0 := countBusy_set c.workers i .idle hi
        rw [hwi] at h0
        simpa [isBusy_idle, isBusy_busy] using h0
      refine { wlen := ?_, slen := slen, hworker := ?_,
               hf := ?_, hm := hm, hu := ?_, hphase := ?_ }
      · simpa using wlen
      · dsimp only
        omega
      · dsimp only
        omega
      · intro j hwj hsj
        dsimp only at hwj hsj ⊢
        rw [List.length_set] at hwj
        by_cases hij : i = j
        · subst hij
          rw [List.getElem_set_self (by simpa using hi)]
          have hold := hworker i hi hsj
          rw [hwi] at hold
          constructor
          · constructor
            · intro hx
              cases hx
            · intro hx
              exact absurd (hold.1.mpr hx) (by simp)
          · exact hold.2
        · rw [List.getElem_set_ne hij]
          exact hworker j hwj hsj
      · rcases hcp : c.prod with rem | _ | k | _ <;>
          simp only [PhaseInv, hcp] at hphase ⊢
        · exact hphase
        · exact hphase
        · refine ⟨hphase.1, hphase.2.1, by omega⟩
        · have := List.getElem_mem hi
          rw [hwi] at this
          exact absurd (hphase.2.2.2 _ this) (by simp)

end Sched

/-- C2: in every reachable configuration of the pipeline, at most `n`
termination markers have been enqueued; whenever at least one marker
has been enqueued, every file task ever enqueued has already been
acknowledged (markers only after `q.join()` returns); and when the
coordinator has finished, exactly `n` markers were enqueued, all `n`
workers have exited, and each observed exactly one marker. -/
theorem shutdown_markers_after_drain (cap : Nat) (files : List Nat) (n : Nat)
    (c : Sched.Cfg) (h : Sched.Reach cap files n c) :
    c.mPuts ≤ n ∧
    (0 < c.mPuts → c.fAcks = c.fPuts) ∧
    (c.prod = .finished →
      c.mPuts = n ∧ (∀ w ∈ c.workers, w = .exited) ∧
      ∀ i, (hi : i < c.seen.length) → c.seen[i] = 1) := by
  obtain ⟨wlen, slen, hf, hm, hu, hworker, hphase⟩ :=
    Sched.reach_inv cap files n c h
  refine ⟨?_, ?_, ?_⟩
  · rcases hcp : c.prod with rem | _ | k | _ <;>
      simp only [Sched.PhaseInv, hcp] at hphase <;> omega
  · intro hpos
    rcases hcp : c.prod with rem | _ | k | _ <;>
      simp only [Sched.PhaseInv, hcp] at hphase <;> omega
  · intro hfin
    simp only [Sched.PhaseInv, hfin] at hphase
    refine ⟨hphase.1, hphase.2.2.2, ?_⟩
    intro i hiS
    have hiW : i < c.workers.length := by omega
    have hex : c.workers[i] = .exited :=
      hphase.2.2.2 _ (List.getElem_mem hiW)
    exact (hworker i hiW hiS).1.mp hex

/-- Witness for C2: a complete concrete run with one file, one worker and
capacity one reaches the final configuration, where exactly one marker
was enqueued, acks match puts, and the lone worker saw one marker. -/
theorem shutdown_markers_after_drain_witness :
    Sched.demoFinal.prod = .finished ∧ Sched.demoFinal.mPuts = 1 ∧
    Sched.demoFinal.fAcks = Sched.demoFinal.fPuts ∧
    ∀ i, (hi : i < Sched.demoFinal.seen.length) →
      Sched.demoFinal.seen[i] = 1 := by
  have h0 : Sched.Reach 1 [0] 1 (Sched.initCfg [0] 1) := Sched.Reach.init
  have h1 := Sched.Reach.step h0 (Sched.Step.putFile _ 0 [] rfl (by decide))
  have h2 := Sched.Reach.step h1 (Sched.Step.startJoin _ rfl)
  have h3 := Sched.Reach.step h2
    (Sched.Step.getFile _ 0 0 [] (by decide) rfl rfl)
  have h4 := Sched.Reach.step h3 (Sched.Step.ackFile _ 0 0 (by decide) rfl)
  have h5 := Sched.Reach.step h4 (Sched.Step.joinReturn _ rfl rfl)
  have h6 := Sched.Reach.step h5 (Sched.Step.putMarker _ 0 rfl (by decide))
  have h7 := Sched.Reach.step h6
    (Sched.Step.getMarker _ 0 [] (by decide) (by decide) rfl rfl)
  have h8 := Sched.Reach.step h7 (Sched.Step.gatherDone _ rfl (by decide))
  have hreach : Sched.Reach 1 [0] 1 Sched.demoFinal := h8
  have h := shutdown_markers_after_drain 1 [0] 1 Sched.demoFinal hreach
  have hfin := h.2.2 rfl
  exact ⟨rfl, hfin.1, h.2.1 (by decide), hfin.2.2⟩

/-- C9 counterexample: with a missing source directory, `main` logs the
diagnostic and returns normally — `asyncio.run(main())` completes and
the process exits with status 0, not a non-zero failure signal. -/
theorem main_bad_source_cex :
    main_model false true true true = ([.logSourceError], 0) ∧
    ¬(main_model false true true true).2 ≠ 0 := by
  refine ⟨by decide, by decide⟩

/-- C9 amended: when the source path does not exist or is not a directory,
the run aborts before any work starts — the pipeline (workers, queue,
copies) is never invoked and the diagnostic is logged exactly once —
but `main` returns normally, so the process exit status is 0 rather
than a non-zero failure signal. -/
theorem main_bad_source_aborts (e d m p : Bool) (h : ¬(e = true ∧ d = true)) :
    main_model e d m p = ([.logSourceError], 0) ∧
    MainEvent.runPipeline ∉ (main_model e d m p).1 ∧
    (main_model e d m p).1.count .logSourceError = 1 ∧
    (main_model e d m p).2 = 0 := by
  have hcond : (!e || !d) = true := by
    cases e <;> cases d <;> simp_all
  have hm : main_model e d m p = ([.logSourceError], 0) := by
    simp [main_model, hcond]
  refine ⟨hm, ?_, ?_, ?_⟩ <;> rw [hm] <;> decide

/-- Witness for C9 amended, at a source that does not exist. -/
theorem main_bad_source_aborts_witness :
    ¬(false = true ∧ true = true) ∧
    main_model false true true true = ([.logSourceError], 0) := by
  exact ⟨by decide, (main_bad_source_aborts false true true true (by decide)).1⟩

/-- C8: the worker loop dequeues items in order, exits at the first
termination marker, invokes the Copy Operation exactly once per file
item and acknowledges every dequeued item (files and the marker)
exactly once, whatever each copy's outcome. -/
theorem consumer_one_ack_per_item (copyRes : Path → CopyOutcome)
    (pre : List Path) (rest : List (Option Path)) :
    consumer copyRes (pre.map some ++ none :: rest) =
      (pre.map fun p => [CEvent.copyCall p (copyRes p), CEvent.ack]).flatten
        ++ [CEvent.ack, CEvent.exitLoop] ∧
    (consumer copyRes (pre.map some ++ none :: rest)).countP
        (fun e => e == CEvent.ack) = pre.length + 1 ∧
    (consumer copyRes (pre.map some ++ none :: rest)).countP
        (fun e => e.isCopy) = pre.length := by
  induction pre with
  | nil =>
    refine ⟨by simp [consumer], ?_, ?_⟩ <;>
      simp [consumer, List.countP_cons, beq_copyCall_ack, beq_ack_ack,
        beq_exit_ack, isCopy_copyCall, isCopy_ack, isCopy_exit]
  | cons p ps ih =>
    obtain ⟨h1, h2, h3⟩ := ih
    refine ⟨by simpa [consumer] using h1, ?_, ?_⟩
    · simp [consumer, List.countP_cons, beq_copyCall_ack, beq_ack_ack,
        beq_exit_ack, List.append_eq] at h2 ⊢
      omega
    · simp [consumer, List.countP_cons, isCopy_copyCall, isCopy_ack,
        isCopy_exit, List.append_eq] at h3 ⊢
      omega

end Task1

namespace Task2

/-- Helper: how one `defaultdict` insertion changes the grouped lookup. -/
theorem insertKV_getA (acc : List (Word × List Nat)) (k : Word) (v : Nat)
    (w : Word) :
    getA (insertKV acc (k, v)) w =
      if w = k then some ((getA acc k).getD [] ++ [v]) else getA acc w := by
  induction acc with
  | nil =>
    by_cases hw : w = k
    · subst hw
      simp [insertKV, getA]
    · simp [insertKV, getA, hw, Ne.symm hw]
  | cons e rest ih =>
    by_cases he : e.1 = k
    · by_cases hw : w = k
      · subst hw
        simp [insertKV, getA, he]
      · have hew : e.1 ≠ w := by
          rw [he]
          exact fun hh => hw hh.symm
        have hkw : ¬k = w := fun hh => hw hh.symm
        simp [insertKV, getA, he, hew, hw, hkw]
    · by_cases hew : e.1 = w
      · have hw : ¬w = k := fun hk => he (hew.trans hk)
        simp [insertKV, getA, he, hew, hw]
      · simp [insertKV, getA, he, hew, ih]

/-- Helper: the grouped lookup after folding a mapped list collects, in
order, every value carried by the key. -/
theorem foldl_insertKV_getA (ms : List (Word × Nat))
    (acc : List (Word × List Nat)) (k : Word) :
    getA (ms.foldl insertKV acc) k =
      match getA acc k with
      | some l => some (l ++ valuesOf k ms)
      | none =>
        if valuesOf k ms = [] then none else some (valuesOf k ms) := by
  induction ms generalizing acc with
  | nil => cases h : getA acc k <;> simp [valuesOf, h]
  | cons m ms ih =>
    obtain ⟨k0, v0⟩ := m
    rw [List.foldl_cons, ih]
    by_cases hk : k0 = k
    · subst hk
      rw [insertKV_getA]
      simp only [if_pos rfl]
      have hv : valuesOf k0 ((k0, v0) :: ms) = v0 :: valuesOf k0 ms := by
        simp [valuesOf]
      rw [hv]
      cases h : getA acc k0 with
      | none => simp
      | some l => simp
    · rw [insertKV_getA]
      have hne : ¬k = k0 := fun h => hk h.symm
      simp only [if_neg hne]
      have hv : valuesOf k ((k0, v0) :: ms) = valuesOf k ms := by
        simp [valuesOf, hk]
      rw [hv]

/-- Helper: first-match lookup commutes with the reduction map. -/
theorem getFirst_map_reduceFn (l : List (Word × List Nat)) (k : Word) :
    getFirst (l.map reduce_function) k = (getA l k).map List.sum := by
  induction l with
  | nil => simp [getFirst, getA]
  | cons e rest ih =>
    by_cases he : e.1 = k <;>
      simp [getFirst, getA, reduce_function, he, ih]

/-- Helper: the keys after one insertion. -/
theorem insertKV_keys (acc : List (Word × List Nat)) (kv : Word × Nat) :
    (insertKV acc kv).map Prod.fst =
      if kv.1 ∈ acc.map Prod.fst then acc.map Prod.fst
      else acc.map Prod.fst ++ [kv.1] := by
  induction acc with
  | nil => simp [insertKV]
  | cons e rest ih =>
    by_cases he : e.1 = kv.1
    · simp [insertKV, he]
    · by_cases hm : kv.1 ∈ rest.map Prod.fst <;>
        simp [insertKV, he, ih, hm, Ne.symm he]

/-- Helper: grouping preserves key uniqueness. -/
theorem foldl_insertKV_keys_nodup (ms : List (Word × Nat))
    (acc : List (Word × List Nat)) (h : (acc.map Prod.fst).Nodup) :
    ((ms.foldl insertKV acc).map Prod.fst).Nodup := by
  induction ms generalizing acc with
  | nil => exact h
  | cons m rest ih =>
    rw [List.foldl_cons]
    refine ih _ ?_
    rw [insertKV_keys]
    by_cases hm : m.1 ∈ acc.map Prod.fst
    · simpa [hm] using h
    · simp [hm, List.nodup_append, h]

/-- Helper: a fold of the dict-update function over pairs avoiding the key
leaves the accumulator unchanged. -/
theorem dictGet_untouched (rest : List (Word × Nat)) (acc : Option Nat)
    (k : Word) (h : ∀ e ∈ rest, e.1 ≠ k) :
    rest.foldl (fun a e => if e.1 = k then some e.2 else a) acc = acc := by
  induction rest generalizing acc with
  | nil => rfl
  | cons e r ih =>
    rw [List.foldl_cons, if_neg (h e (List.mem_cons_self e r))]
    exact ih _ (fun x hx => h x (List.mem_cons_of_mem _ hx))

/-- Helper: on unique keys, Python-dict (last-wins) lookup coincides with
first-match lookup. -/
theorem dictGet_eq_getFirst (l : List (Word × Nat)) (k : Word)
    (h : (l.map Prod.fst).Nodup) : dictGet l k = getFirst l k := by
  induction l with
  | nil => rfl
  | cons e rest ih =>
    rw [dictGet, List.foldl_cons]
    rw [List.map_cons, List.nodup_cons] at h
    by_cases he : e.1 = k
    · rw [if_pos he]
      have hnotin : ∀ x ∈ rest, x.1 ≠ k := by
        intro x hx hc
        exact h.1 (he ▸ hc ▸ List.mem_map_of_mem Prod.fst hx)
      rw [dictGet_untouched rest _ k hnotin, getFirst, if_pos he]
    · rw [if_neg he, getFirst, if_neg he]
      exact ih h.2

/-- Helper: the values grouped under `k` after mapping each word to
`(word, 1)` are one `1` per occurrence of `k`. -/
theorem valuesOf_map_one (ws : List Word) (k : Word) :
    valuesOf k (ws.map map_function) = List.replicate (ws.count k) 1 := by
  induction ws with
  | nil => simp [valuesOf]
  | cons w ws ih =>
    by_cases hw : w = k
    · subst hw
      simp only [valuesOf] at ih
      simp [valuesOf, map_function, List.count_cons, List.replicate_succ,
        ih]
    · simp only [valuesOf] at ih
      simp [valuesOf, map_function, List.count_cons, hw, Ne.symm hw, ih]

/-- Helper: the sum of `n` ones is `n`. -/
theorem sum_replicate_one (n : Nat) : (List.replicate n 1).sum = n := by
  induction n with
  | zero => rfl
  | succ k ih => simp [List.replicate_succ, ih, Nat.add_comm]

/-- Helper: counting in a membership-filtered list. -/
theorem count_filter_contains (ws : List Word) (wanted : List Word)
    (w : Word) :
    (ws.filter (fun x => wanted.contains x)).count w =
      if wanted.contains w then ws.count w else 0 := by
  by_cases hw : wanted.contains w
  · rw [if_pos hw]
    exact List.count_filter hw
  · rw [if_neg hw, List.count_eq_zero]
    intro hc
    exact hw (List.of_mem_filter hc)

/-- Helper: the map-shuffle-reduce-dict pipeline computes, for every word,
its number of occurrences in the input word list (absent keys iff the
word does not occur). -/
theorem dictGet_pipeline (ws : List Word) (w : Word) :
    dictGet ((shuffle_function (ws.map map_function)).map reduce_function)
        w =
      if ws.count w = 0 then none else some (ws.count w) := by
  have hnd := foldl_insertKV_keys_nodup (ws.map map_function) [] (by simp)
  have hnd2 : (((shuffle_function (ws.map map_function)).map
      reduce_function).map Prod.fst).Nodup := by
    simpa [shuffle_function, reduce_function, List.map_map,
      Function.comp] using hnd
  rw [dictGet_eq_getFirst _ _ hnd2, getFirst_map_reduceFn, shuffle_function,
    foldl_insertKV_getA]
  simp only [getA]
  rw [valuesOf_map_one]
  by_cases h0 : ws.count w = 0
  · simp [h0]
  · have hne : List.replicate (ws.count w) 1 ≠ [] := by
      cases hc : ws.count w
      · exact absurd hc h0
      · simp [List.replicate_succ]
    simp [h0, hne, sum_replicate_one]

end Task2

namespace Task2

/-- C10 counterexample: `map_reduce` called with an explicitly given but
empty search-word list does not restrict the keys to the (empty) search
set — the falsy empty list disables filtering, so the full frequency
map is returned. -/
theorem map_reduce_empty_search_cex :
    map_reduce ['a'] (some []) = [(['a'], 1)] ∧
    dictGet (map_reduce ['a'] (some [])) ['a'] = some 1 ∧
    ['a'] ∉ (([] : List Word).map (fun s => s.map Char.toLower)) := by
  refine ⟨by decide, by decide, by decide⟩

/-- C10 amended: with no search filter (or, per the code's falsiness test,
an empty one), `map_reduce` returns exactly the reference
word-frequency map — each word maps to its occurrence count after
lowercasing, punctuation removal and whitespace splitting, and absent
keys are exactly the non-occurring words; with a non-empty search-word
list, the keys are restricted to the lowercased search words occurring
in the text, with the same counts. -/
theorem map_reduce_word_frequency (text : List Char) (w : Word) :
    dictGet (map_reduce text none) w =
      (if wordFreq text w = 0 then none else some (wordFreq text w)) ∧
    ∀ sw : List Word, sw ≠ [] →
      dictGet (map_reduce text (some sw)) w =
        (if w ∈ sw.map (fun s => s.map Char.toLower) ∧ wordFreq text w ≠ 0
          then some (wordFreq text w) else none) := by
  constructor
  · simp only [map_reduce, wordFreq]
    exact dictGet_pipeline _ w
  · intro sw hsw
    simp only [map_reduce, wordFreq, if_neg hsw]
    rw [dictGet_pipeline, count_filter_contains]
    by_cases hm : w ∈ sw.map (fun s => s.map Char.toLower)
    · have hc : (sw.map (fun s => s.map Char.toLower)).contains w = true := by
        simpa using hm
      by_cases h0 :
          (splitWs (remove_punctuation (lowerText text))).count w = 0 <;>
        simp [hc, hm, h0]
    · have hc : (sw.map (fun s => s.map Char.toLower)).contains w = false := by
        simpa using hm
      simp [hc, hm]

end Task2

namespace Task2

/-- Witness for C10 amended, on the text `a b a` with the non-empty search
list `[A]`: the lowercased search word `a` occurs twice. -/
theorem map_reduce_word_frequency_witness :
    ([['A']] : List Word) ≠ [] ∧
    dictGet (map_reduce ['a', ' ', 'b', ' ', 'a'] (some [['A']])) ['a'] =
      some 2 := by
  refine ⟨by decide, ?_⟩
  have h := (map_reduce_word_frequency ['a', ' ', 'b', ' ', 'a'] ['a']).2
    [['A']] (by decide)
  rw [h]
  decide

end Task2
